import Mathlib

/-!
Shallow embedding of the command event loop in `src/main.go` of
Beaxhem/architecture-lab-4, together with proofs about its queue
invariants, FIFO behaviour, shutdown protocol, parser and arithmetic.

The Go program has three command variants (`printCommand`, `addCommand`,
`stopCommand`), a `commandsQueue` with `pull`/`peek`/`push`, and an
`EventLoop` whose worker goroutine (started by `Start`) repeatedly pulls
and executes commands until `isStopped` is observed, while the main
goroutine posts parsed commands and finally calls `AwaitFinish`
(post a `stopCommand`, then wait for the worker's signal).
-/

/-- The `Command` values of `src/main.go`: `printCommand{arg}`,
`addCommand{arg1, arg2}`, `stopCommand{}`.  Go `int` is modelled as a
mathematical integer; `addCommand.Execute` applies 64-bit wrapping
explicitly (see `wadd`). -/
inductive Command where
  | print : String → Command
  | add : Int → Int → Command
  | stop : Command
deriving DecidableEq

/-- Two's-complement wrap of an integer into the 64-bit range
`[-2^63, 2^63)`, the behaviour of Go's `int` addition on a 64-bit
platform. -/
def wrapInt (x : Int) : Int := (x + 2 ^ 63) % 2 ^ 64 - 2 ^ 63

/-- The `res := add.arg1 + add.arg2` of `addCommand.Execute`
(`src/main.go:121`): Go fixed-width integer addition. -/
def wadd (a b : Int) : Int := wrapInt (a + b)

/-- `strconv.Itoa` as used in `addCommand.Execute` (`src/main.go:122`). -/
def itoa (i : Int) : String := toString i

/-- `commandsQueue.pull` (`src/main.go:20-27`): take the first element.
On an empty queue the Go code hits `q.queue[0]` with an index
out-of-range panic; that fatal branch is modelled by `none`. -/
def pull (q : List Command) : Option (Command × List Command) :=
  match q with
  | [] => Option.none
  | c :: rest => Option.some (c, rest)

/-- `commandsQueue.peek` (`src/main.go:29-34`): `nil` on an empty queue,
otherwise the last element `q.queue[len(q.queue)-1]`. -/
def peek (q : List Command) : Option Command :=
  if q.length = 0 then Option.none else q[q.length - 1]?

/-- `commandsQueue.push` (`src/main.go:36-47`): if the peeked last
element is a (non-nil) `*stopCommand`, overwrite the last slot with
`cmd` (`q.queue[len(q.queue)-1] = cmd`) and append the old `stopCommand`
value back; otherwise append `cmd`. -/
def push (q : List Command) (cmd : Command) : List Command :=
  match peek q with
  | Option.some Command.stop => q.set (q.length - 1) cmd ++ [Command.stop]
  | _ => q ++ [cmd]

/-- State of the two goroutines of the program: the main goroutine
(producer: `pending` lines still to post, then `AwaitFinish` when
`awaitStop` is set) and the `EventLoop` worker, sharing the `EventLoop`
fields `queue`, `isStopped` and the `stopSignal` channel (`signaled`).
`executed` is the (ghost) list of commands the worker has executed, in
order; `postedLog` the (ghost) list of all commands ever pushed, in push
order; `output` the lines written by `printCommand.Execute`. -/
structure SysState where
  pending : List Command
  awaitStop : Bool
  postedStop : Bool
  queue : List Command
  isStopped : Bool
  signaled : Bool
  executed : List Command
  postedLog : List Command
  output : List String
deriving DecidableEq

/-- `EventLoop.Post` (`src/main.go:82-84`): delegate to `push`.  The
ghost `postedLog` records the push. -/
def post (s : SysState) (cmd : Command) : SysState :=
  { s with queue := push s.queue cmd, postedLog := s.postedLog ++ [cmd] }

/-- `EventLoop.Stop` (`src/main.go:78-80`): set `isStopped` to true;
nothing else is touched. -/
def elStop (s : SysState) : SysState := { s with isStopped := true }

/-- `Command.Execute` dispatch (`src/main.go:104-123`): `printCommand`
writes its argument, `addCommand` posts a `printCommand` with the
wrapped sum, `stopCommand` calls `handler.Stop()`. -/
def execute (c : Command) (s : SysState) : SysState :=
  match c with
  | Command.print a => { s with output := s.output ++ [a] }
  | Command.add a b => post s (Command.print (itoa (wadd a b)))
  | Command.stop => elStop s

/-- One iteration of the worker goroutine launched by `EventLoop.Start`
(`src/main.go:65-76`): if `isStopped`, the loop has exited and the
goroutine sends on `stopSignal` (exactly once); otherwise, if the queue
is empty, busy-spin (`continue`); otherwise `pull` one command and
execute it.  The pull and the execution of one command are taken as one
atomic step. -/
def workerStep (s : SysState) : SysState :=
  if s.isStopped then
    if s.signaled then s else { s with signaled := true }
  else if s.queue.length = 0 then
    s
  else
    match pull s.queue with
    | Option.none => s
    | Option.some (c, rest) =>
        execute c { s with queue := rest, executed := s.executed ++ [c] }

/-- One step of the main goroutine (`src/main.go:141-161`): post the
next pending command; when all are posted and `awaitStop` is set,
`AwaitFinish` (`src/main.go:86-89`) posts a `stopCommand` (once) and
then only waits on `stopSignal`. -/
def producerStep (s : SysState) : SysState :=
  match s.pending with
  | c :: rest => post { s with pending := rest } c
  | [] =>
      if s.awaitStop && !s.postedStop then
        post { s with postedStop := true } Command.stop
      else s

/-- A scheduler choice: `true` runs the worker goroutine for one step,
`false` the main goroutine. -/
def sysStep (worker : Bool) (s : SysState) : SysState :=
  if worker then workerStep s else producerStep s

/-- Run the two goroutines under an explicit interleaving schedule. -/
def runSys (s : SysState) (sched : List Bool) : SysState :=
  sched.foldl (fun t b => sysStep b t) s

/-- Initial state: `NewEventLoop` (`src/main.go:57-63`) with an empty
queue and `isStopped = false`, the producer still holding `cmds`. -/
def initSys (cmds : List Command) (await : Bool) : SysState :=
  ⟨cmds, await, false, [], false, false, [], [], []⟩

/-- `strings.Fields` (used in `parse`, `src/main.go:126`): split around
runs of whitespace, never producing empty fields. -/
def fieldsAux (cs : List Char) (cur : List Char) : List String :=
  match cs with
  | [] => if cur.isEmpty then [] else [String.mk cur]
  | c :: rest =>
      if c.isWhitespace then
        if cur.isEmpty then fieldsAux rest []
        else String.mk cur :: fieldsAux rest []
      else fieldsAux rest (cur ++ [c])

/-- `strings.Fields(line)` as a list of tokens. -/
def fields (line : String) : List String := fieldsAux line.data []

/-- Decimal digits to a number, `none` on any non-digit: the core of
`strconv.Atoi`.  An empty digit string yields `some 0`, matching the
value 0 that Go's `Atoi` returns alongside its (discarded) error. -/
def decNat? (cs : List Char) : Option Nat :=
  cs.foldl
    (fun acc c =>
      match acc with
      | Option.none => Option.none
      | Option.some n =>
          if c.isDigit then Option.some (n * 10 + (c.toNat - 48)) else Option.none)
    (Option.some 0)

/-- `strconv.Atoi` as used in `parse` (`src/main.go:132-133`) with its
error discarded: syntax errors leave the value 0, range errors leave the
value clamped to the 64-bit `int` bounds. -/
def atoi (s : String) : Int :=
  let n : Option Int :=
    match s.data with
    | '-' :: rest => (decNat? rest).map (fun m => -(m : Int))
    | '+' :: rest => (decNat? rest).map (fun m => (m : Int))
    | cs => (decNat? cs).map (fun m => (m : Int))
  match n with
  | Option.none => 0
  | Option.some v =>
      if v ≥ 2 ^ 63 then 2 ^ 63 - 1
      else if v < -(2 ^ 63) then -(2 ^ 63)
      else v

/-- Result of `parse` (`src/main.go:125-137`): either a runtime panic
(an out-of-range slice index), or `res none` for Go's `nil` (no
command), or `res (some c)`. -/
inductive ParseResult where
  | panic : ParseResult
  | res : Option Command → ParseResult
deriving DecidableEq

/-- `parse` (`src/main.go:125-137`).  `parts[0]` panics when the line
has no fields; `args[0]` (resp. `args[1]`) panics when a recognised
command has too few argument tokens. -/
def parse (line : String) : ParseResult :=
  match fields line with
  | [] => ParseResult.panic
  | command :: args =>
      if command = "print" then
        match args with
        | [] => ParseResult.panic
        | a :: _ => ParseResult.res (Option.some (Command.print a))
      else if command = "add" then
        match args with
        | a1 :: a2 :: _ =>
            ParseResult.res (Option.some (Command.add (atoi a1) (atoi a2)))
        | _ => ParseResult.panic
      else ParseResult.res Option.none

/-- The scanner loop of `main` (`src/main.go:153-158`) on lines none of
which make `parse` panic: post each parsed command, skip `nil`s. -/
def driverCommands (lines : List String) : List Command :=
  lines.filterMap
    (fun l =>
      match parse l with
      | ParseResult.res (Option.some c) => Option.some c
      | _ => Option.none)

/-- Number of `stopCommand`s in a queue. -/
def countStop : List Command → Nat
  | [] => 0
  | c :: rest => (if c = Command.stop then 1 else 0) + countStop rest

/-- The spec's Stop-last invariant: at most one pending Stop command,
and when present it is the last element. -/
def stopLastInv (q : List Command) : Prop :=
  countStop q ≤ 1 ∧ (Command.stop ∈ q → q.getLast? = Option.some Command.stop)

instance : DecidablePred stopLastInv := fun q => by
  unfold stopLastInv
  infer_instance

/-- `push` as the spec words it: append at the end, unless the current
last element is a Stop command, in which case the new command is
inserted in its place and the Stop command is re-appended after it. -/
def pushSpec (q : List Command) (cmd : Command) : List Command :=
  if q.getLast? = Option.some Command.stop then
    q.dropLast ++ [cmd, Command.stop]
  else q ++ [cmd]

theorem peek_eq_getLast? (q : List Command) : peek q = q.getLast? := by
  cases q with
  | nil => rfl
  | cons a t => simp [peek, List.getLast?_eq_getElem?]

theorem set_last_eq :
    ∀ (q : List Command), q ≠ [] → ∀ cmd : Command,
      q.set (q.length - 1) cmd = q.dropLast ++ [cmd]
  | [], h, _ => absurd rfl h
  | [_], _, _ => rfl
  | a :: b :: u, _, cmd => by
      have ih := set_last_eq (b :: u) (by simp) cmd
      simp only [List.length_cons, Nat.add_sub_cancel] at ih ⊢
      simpa [List.set, List.dropLast] using ih

theorem getLast?_ne_nil {q : List Command} {c : Command}
    (h : q.getLast? = Option.some c) : q ≠ [] := by
  intro e
  subst e
  simp at h

theorem push_eq_spec (q : List Command) (cmd : Command) :
    push q cmd = pushSpec q cmd := by
  unfold push pushSpec
  rw [peek_eq_getLast?]
  cases hq : q.getLast? with
  | none => simp
  | some c =>
    cases c with
    | print a => simp
    | add a b => simp
    | stop =>
        have hne : q ≠ [] := getLast?_ne_nil hq
        rw [set_last_eq q hne cmd]
        simp

theorem push_of_getLast?_stop {q : List Command}
    (h : q.getLast? = Option.some Command.stop) (cmd : Command) :
    push q cmd = q.dropLast ++ [cmd, Command.stop] := by
  rw [push_eq_spec]
  unfold pushSpec
  rw [if_pos h]

theorem push_of_getLast?_ne {q : List Command}
    (h : q.getLast? ≠ Option.some Command.stop) (cmd : Command) :
    push q cmd = q ++ [cmd] := by
  rw [push_eq_spec]
  unfold pushSpec
  rw [if_neg h]

theorem length_push (q : List Command) (cmd : Command) :
    (push q cmd).length = q.length + 1 := by
  by_cases h : q.getLast? = Option.some Command.stop
  · have hne : q ≠ [] := getLast?_ne_nil h
    have hpos : 0 < q.length := List.length_pos.mpr hne
    rw [push_of_getLast?_stop h]
    simp [List.length_dropLast]
    omega
  · rw [push_of_getLast?_ne h]
    simp

theorem dropLast_append_stop {q : List Command}
    (h : q.getLast? = Option.some Command.stop) :
    q.dropLast ++ [Command.stop] = q :=
  List.dropLast_append_getLast? Command.stop h

theorem mem_push {q : List Command} {cmd a : Command} :
    a ∈ push q cmd ↔ a ∈ q ∨ a = cmd := by
  by_cases h : q.getLast? = Option.some Command.stop
  · rw [push_of_getLast?_stop h]
    conv_rhs => rw [← dropLast_append_stop h]
    simp [List.mem_append]
    tauto
  · rw [push_of_getLast?_ne h]
    simp [List.mem_append]

theorem countStop_append (l₁ l₂ : List Command) :
    countStop (l₁ ++ l₂) = countStop l₁ + countStop l₂ := by
  induction l₁ with
  | nil => simp [countStop]
  | cons a t ih => simp [countStop, ih]; omega

theorem countStop_eq_zero_iff {q : List Command} :
    countStop q = 0 ↔ Command.stop ∉ q := by
  induction q with
  | nil => simp [countStop]
  | cons a t ih =>
    by_cases h : a = Command.stop
    · subst h
      simp [countStop]
    · simp [countStop, h, ih, Ne.symm h]

theorem countStop_pos_of_mem {q : List Command} (h : Command.stop ∈ q) :
    1 ≤ countStop q := by
  rcases Nat.eq_zero_or_pos (countStop q) with h0 | h1
  · exact absurd h (countStop_eq_zero_iff.mp h0)
  · exact h1

theorem countStop_push_stop (q : List Command) :
    countStop (push q Command.stop) = countStop q + 1 := by
  by_cases h : q.getLast? = Option.some Command.stop
  · rw [push_of_getLast?_stop h]
    conv_rhs => rw [← dropLast_append_stop h]
    simp [countStop_append, countStop]
  · rw [push_of_getLast?_ne h]
    simp [countStop_append, countStop]

theorem countStop_push_ne {q : List Command} {cmd : Command}
    (hcmd : cmd ≠ Command.stop) :
    countStop (push q cmd) = countStop q := by
  by_cases h : q.getLast? = Option.some Command.stop
  · rw [push_of_getLast?_stop h]
    conv_rhs => rw [← dropLast_append_stop h]
    simp [countStop_append, countStop, hcmd]
  · rw [push_of_getLast?_ne h]
    simp [countStop_append, countStop, hcmd]

theorem stopLastInv_push {q : List Command} {cmd : Command}
    (hinv : stopLastInv q)
    (hnot : cmd = Command.stop → q.getLast? ≠ Option.some Command.stop) :
    stopLastInv (push q cmd) := by
  obtain ⟨hcount, hlast⟩ := hinv
  by_cases h : q.getLast? = Option.some Command.stop
  · have hcmd : cmd ≠ Command.stop := fun e => hnot e h
    have hc1 : countStop q = countStop q.dropLast + 1 := by
      conv_lhs => rw [← dropLast_append_stop h]
      simp [countStop_append, countStop]
    constructor
    · rw [countStop_push_ne hcmd]
      exact hcount
    · intro _
      rw [push_of_getLast?_stop h,
        show q.dropLast ++ [cmd, Command.stop]
            = (q.dropLast ++ [cmd]) ++ [Command.stop] by simp]
      exact List.getLast?_concat _
  · have hnotin : Command.stop ∉ q := fun hm => h (hlast hm)
    rw [push_of_getLast?_ne h]
    by_cases hc : cmd = Command.stop
    · subst hc
      constructor
      · rw [countStop_append]
        have h0 := countStop_eq_zero_iff.mpr hnotin
        simp [countStop]
        omega
      · intro _
        exact List.getLast?_concat _
    · constructor
      · rw [countStop_append]
        have h0 := countStop_eq_zero_iff.mpr hnotin
        simp [countStop, hc]
        omega
      · intro hm
        rcases List.mem_append.mp hm with h1 | h1
        · exact absurd h1 hnotin
        · simp at h1
          exact absurd h1.symm hc

theorem stop_head_singleton {rest : List Command}
    (hinv : stopLastInv (Command.stop :: rest)) : rest = [] := by
  obtain ⟨hcount, hlast⟩ := hinv
  cases rest with
  | nil => rfl
  | cons b u =>
    have hl := hlast (by simp)
    rw [List.getLast?_cons_cons] at hl
    have hmem : Command.stop ∈ b :: u :=
      List.mem_of_mem_getLast? (Option.mem_def.mpr hl)
    have h1 := countStop_pos_of_mem hmem
    have h2 : (1 : Nat) + countStop (b :: u) ≤ 1 := by
      simpa [countStop] using hcount
    omega

theorem stopLastInv_tail {c : Command} {rest : List Command}
    (h : stopLastInv (c :: rest)) : stopLastInv rest := by
  obtain ⟨hcount, hlast⟩ := h
  constructor
  · have : countStop (c :: rest)
        = (if c = Command.stop then 1 else 0) + countStop rest := rfl
    omega
  · intro hm
    have hne : rest ≠ [] := List.ne_nil_of_mem hm
    cases rest with
    | nil => exact absurd rfl hne
    | cons b u =>
        have := hlast (List.mem_cons_of_mem c hm)
        rwa [List.getLast?_cons_cons] at this

theorem not_mem_of_getLast?_ne {q : List Command}
    (hinv : stopLastInv q)
    (h : q.getLast? ≠ Option.some Command.stop) : Command.stop ∉ q :=
  fun hm => h (hinv.2 hm)

/-- Shutdown-protocol invariant of the two-goroutine system: `cmds` are
the commands the main goroutine posts before `AwaitFinish`. -/
structure SysInv (cmds : List Command) (s : SysState) : Prop where
  pendingNoStop : ∀ c ∈ s.pending, c ≠ Command.stop
  cmdsCovered : ∀ c ∈ cmds, c ∈ s.pending ∨ c ∈ s.executed ∨ c ∈ s.queue
  postedCovered : ∀ c ∈ s.postedLog, c ∈ s.executed ∨ c ∈ s.queue
  postedStopPending : s.postedStop = true → s.pending = []
  noStopBeforePost : s.postedStop = false → Command.stop ∉ s.queue
  queueInv : stopLastInv s.queue
  stoppedDone : s.isStopped = true → s.pending = [] ∧ s.queue = []
  signaledStopped : s.signaled = true → s.isStopped = true
  stoppedPosted : s.isStopped = true → s.postedStop = true

theorem sysInv_producer {cmds : List Command} {s : SysState}
    (h : SysInv cmds s) : SysInv cmds (producerStep s) := by
  cases hp : s.pending with
  | cons c rest =>
      have hcstop : c ≠ Command.stop := h.pendingNoStop c (by rw [hp]; simp)
      have hnotstopped : s.isStopped = false := by
        cases hi : s.isStopped
        · rfl
        · exact absurd ((h.stoppedDone hi).1.symm.trans hp) (by simp)
      refine ⟨?_, ?_, ?_, ?_, ?_, ?_, ?_, ?_, ?_⟩ <;>
        simp only [producerStep, hp, post]
      · intro d hd
        exact h.pendingNoStop d (by rw [hp]; exact List.mem_cons_of_mem c hd)
      · intro d hd
        rcases h.cmdsCovered d hd with h1 | h1 | h1
        · rw [hp] at h1
          rcases List.mem_cons.mp h1 with h2 | h2
          · exact Or.inr (Or.inr (mem_push.mpr (Or.inr h2)))
          · exact Or.inl h2
        · exact Or.inr (Or.inl h1)
        · exact Or.inr (Or.inr (mem_push.mpr (Or.inl h1)))
      · intro d hd
        rcases List.mem_append.mp hd with h1 | h1
        · rcases h.postedCovered d h1 with h2 | h2
          · exact Or.inl h2
          · exact Or.inr (mem_push.mpr (Or.inl h2))
        · simp at h1
          exact Or.inr (mem_push.mpr (Or.inr h1))
      · intro hps
        exact absurd ((h.postedStopPending hps).symm.trans hp) (by simp)
      · intro hps hm
        rcases mem_push.mp hm with h1 | h1
        · exact h.noStopBeforePost hps h1
        · exact hcstop h1.symm
      · exact stopLastInv_push h.queueInv (fun e _ => hcstop e)
      · intro hi
        rw [hnotstopped] at hi
        exact absurd hi (by simp)
      · intro hs
        rw [h.signaledStopped hs] at hnotstopped
        exact absurd hnotstopped (by simp)
      · intro hi
        rw [hnotstopped] at hi
        exact absurd hi (by simp)
  | nil =>
      by_cases hb : (s.awaitStop && !s.postedStop) = true
      · have hps : s.postedStop = false := by
          rcases Bool.and_eq_true_iff.mp hb with ⟨_, h2⟩
          simpa using h2
        have hnostop : Command.stop ∉ s.queue := h.noStopBeforePost hps
        have hnotstopped : s.isStopped = false := by
          cases hi : s.isStopped
          · rfl
          · exact absurd (h.stoppedPosted hi) (by rw [hps]; simp)
        refine ⟨?_, ?_, ?_, ?_, ?_, ?_, ?_, ?_, ?_⟩ <;>
          simp only [producerStep, hp, hb, if_true, post]
        · intro d hd
          simp at hd
        · intro d hd
          rcases h.cmdsCovered d hd with h1 | h1 | h1
          · rw [hp] at h1
            simp at h1
          · exact Or.inr (Or.inl h1)
          · exact Or.inr (Or.inr (mem_push.mpr (Or.inl h1)))
        · intro d hd
          rcases List.mem_append.mp hd with h1 | h1
          · rcases h.postedCovered d h1 with h2 | h2
            · exact Or.inl h2
            · exact Or.inr (mem_push.mpr (Or.inl h2))
          · simp at h1
            exact Or.inr (mem_push.mpr (Or.inr h1))
        · intro _
          trivial
        · intro hcontra
          exact absurd hcontra (by simp)
        · refine stopLastInv_push h.queueInv (fun _ hlast => ?_)
          exact hnostop (List.mem_of_mem_getLast? (Option.mem_def.mpr hlast))
        · intro hi
          rw [hnotstopped] at hi
          exact absurd hi (by simp)
        · intro hs
          rw [h.signaledStopped hs] at hnotstopped
          exact absurd hnotstopped (by simp)
        · intro _
          trivial
      · have hb' : (s.awaitStop && !s.postedStop) = false := by
          simpa using hb
        have hstep : producerStep s = s := by
          simp [producerStep, hp, hb']
        rw [hstep]
        exact h

theorem stopLastInv_nil : stopLastInv [] := by
  constructor
  · simp [countStop]
  · simp

theorem sysInv_worker {cmds : List Command} {s : SysState}
    (h : SysInv cmds s) : SysInv cmds (workerStep s) := by
  cases hi : s.isStopped with
  | true =>
      cases hsig : s.signaled with
      | true =>
          have hstep : workerStep s = s := by simp [workerStep, hi, hsig]
          rw [hstep]
          exact h
      | false =>
          have hstep : workerStep s = { s with signaled := true } := by
            simp [workerStep, hi, hsig]
          rw [hstep]
          exact ⟨h.pendingNoStop, h.cmdsCovered, h.postedCovered,
            h.postedStopPending, h.noStopBeforePost, h.queueInv,
            fun _ => h.stoppedDone hi, fun _ => hi,
            fun _ => h.stoppedPosted hi⟩
  | false =>
      cases hq : s.queue with
      | nil =>
          have hstep : workerStep s = s := by simp [workerStep, hi, hq]
          rw [hstep]
          exact h
      | cons c rest =>
          have hqinv : stopLastInv (c :: rest) := hq ▸ h.queueInv
          have hrestinv : stopLastInv rest := stopLastInv_tail hqinv
          have hstep : workerStep s
              = execute c { s with queue := rest, executed := s.executed ++ [c] } := by
            simp [workerStep, hi, hq, pull]
          rw [hstep]
          cases c with
          | stop =>
              have hmem : Command.stop ∈ s.queue := by rw [hq]; simp
              have hpost : s.postedStop = true := by
                cases hps : s.postedStop
                · exact absurd hmem (h.noStopBeforePost hps)
                · rfl
              have hpend : s.pending = [] := h.postedStopPending hpost
              have hrest : rest = [] := stop_head_singleton hqinv
              subst hrest
              refine ⟨?_, ?_, ?_, ?_, ?_, ?_, ?_, ?_, ?_⟩ <;>
                simp only [execute, elStop]
              · exact h.pendingNoStop
              · intro d hd
                rcases h.cmdsCovered d hd with h1 | h1 | h1
                · exact Or.inl h1
                · exact Or.inr (Or.inl (List.mem_append_left _ h1))
                · rw [hq] at h1
                  simp at h1
                  subst h1
                  exact Or.inr (Or.inl (List.mem_append_right _ (by simp)))
              · intro d hd
                rcases h.postedCovered d hd with h1 | h1
                · exact Or.inl (List.mem_append_left _ h1)
                · rw [hq] at h1
                  simp at h1
                  subst h1
                  exact Or.inl (List.mem_append_right _ (by simp))
              · intro _
                exact hpend
              · intro hcontra
                rw [hpost] at hcontra
                exact absurd hcontra (by simp)
              · exact stopLastInv_nil
              · intro _
                exact ⟨hpend, trivial⟩
              · intro _
                trivial
              · intro _
                exact hpost
          | print a =>
              refine ⟨?_, ?_, ?_, ?_, ?_, ?_, ?_, ?_, ?_⟩ <;>
                simp only [execute]
              · exact h.pendingNoStop
              · intro d hd
                rcases h.cmdsCovered d hd with h1 | h1 | h1
                · exact Or.inl h1
                · exact Or.inr (Or.inl (List.mem_append_left _ h1))
                · rw [hq] at h1
                  rcases List.mem_cons.mp h1 with h2 | h2
                  · subst h2
                    exact Or.inr (Or.inl (List.mem_append_right _ (by simp)))
                  · exact Or.inr (Or.inr h2)
              · intro d hd
                rcases h.postedCovered d hd with h1 | h1
                · exact Or.inl (List.mem_append_left _ h1)
                · rw [hq] at h1
                  rcases List.mem_cons.mp h1 with h2 | h2
                  · subst h2
                    exact Or.inl (List.mem_append_right _ (by simp))
                  · exact Or.inr h2
              · exact h.postedStopPending
              · intro hps hm
                have := h.noStopBeforePost hps
                rw [hq] at this
                exact this (List.mem_cons_of_mem _ hm)
              · exact hrestinv
              · intro hcontra
                rw [hi] at hcontra
                exact absurd hcontra (by simp)
              · intro hs
                rw [h.signaledStopped hs] at hi
                exact absurd hi (by simp)
              · intro hcontra
                rw [hi] at hcontra
                exact absurd hcontra (by simp)
          | add a b =>
              have hpne : Command.print (itoa (wadd a b)) ≠ Command.stop := by
                simp
              refine ⟨?_, ?_, ?_, ?_, ?_, ?_, ?_, ?_, ?_⟩ <;>
                simp only [execute, post]
              · exact h.pendingNoStop
              · intro d hd
                rcases h.cmdsCovered d hd with h1 | h1 | h1
                · exact Or.inl h1
                · exact Or.inr (Or.inl (List.mem_append_left _ h1))
                · rw [hq] at h1
                  rcases List.mem_cons.mp h1 with h2 | h2
                  · subst h2
                    exact Or.inr (Or.inl (List.mem_append_right _ (by simp)))
                  · exact Or.inr (Or.inr (mem_push.mpr (Or.inl h2)))
              · intro d hd
                rcases List.mem_append.mp hd with h1 | h1
                · rcases h.postedCovered d h1 with h2 | h2
                  · exact Or.inl (List.mem_append_left _ h2)
                  · rw [hq] at h2
                    rcases List.mem_cons.mp h2 with h3 | h3
                    · subst h3
                      exact Or.inl (List.mem_append_right _ (by simp))
                    · exact Or.inr (mem_push.mpr (Or.inl h3))
                · simp at h1
                  exact Or.inr (mem_push.mpr (Or.inr h1))
              · exact h.postedStopPending
              · intro hps hm
                rcases mem_push.mp hm with h1 | h1
                · have := h.noStopBeforePost hps
                  rw [hq] at this
                  exact this (List.mem_cons_of_mem _ h1)
                · exact hpne h1.symm
              · exact stopLastInv_push hrestinv (fun e _ => hpne e)
              · intro hcontra
                rw [hi] at hcontra
                exact absurd hcontra (by simp)
              · intro hs
                rw [h.signaledStopped hs] at hi
                exact absurd hi (by simp)
              · intro hcontra
                rw [hi] at hcontra
                exact absurd hcontra (by simp)

theorem sysInv_step {cmds : List Command} {s : SysState} (b : Bool)
    (h : SysInv cmds s) : SysInv cmds (sysStep b s) := by
  cases b
  · simpa [sysStep] using sysInv_producer h
  · simpa [sysStep] using sysInv_worker h

theorem sysInv_run {cmds : List Command} {s : SysState} (sched : List Bool)
    (h : SysInv cmds s) : SysInv cmds (runSys s sched) := by
  induction sched generalizing s with
  | nil => exact h
  | cons b t ih => exact ih (sysInv_step b h)

theorem sysInv_init (cmds : List Command) (await : Bool)
    (hcmds : ∀ c ∈ cmds, c ≠ Command.stop) :
    SysInv cmds (initSys cmds await) := by
  refine ⟨?_, ?_, ?_, ?_, ?_, ?_, ?_, ?_, ?_⟩ <;>
    simp only [initSys]
  · exact hcmds
  · intro c hc
    exact Or.inl hc
  · intro c hc
    simp at hc
  · intro hcontra
    exact absurd hcontra (by simp)
  · intro _
    simp
  · exact stopLastInv_nil
  · intro hcontra
    exact absurd hcontra (by simp)
  · intro hcontra
    exact absurd hcontra (by simp)
  · intro hcontra
    exact absurd hcontra (by simp)

theorem sysInv_drained {cmds : List Command} {s : SysState}
    (h : SysInv cmds s) (hsig : s.signaled = true) :
    (∀ c ∈ cmds, c ∈ s.executed) ∧ ∀ c ∈ s.postedLog, c ∈ s.executed := by
  have hstopped := h.signaledStopped hsig
  obtain ⟨hpend, hqueue⟩ := h.stoppedDone hstopped
  constructor
  · intro c hc
    rcases h.cmdsCovered c hc with h1 | h1 | h1
    · rw [hpend] at h1
      simp at h1
    · exact h1
    · rw [hqueue] at h1
      simp at h1
  · intro c hc
    rcases h.postedCovered c hc with h1 | h1
    · exact h1
    · rw [hqueue] at h1
      simp at h1

theorem getLast?_ne_stop_of_not_mem {q : List Command}
    (h : Command.stop ∉ q) : q.getLast? ≠ Option.some Command.stop :=
  fun e => h (List.mem_of_mem_getLast? (Option.mem_def.mpr e))

/-- FIFO invariant of the system when no Stop command is ever posted
(`awaitStop = false` and all pending commands are non-Stop): the pushed
commands are pulled in exactly push order, so the executed list is
always a prefix of the posted log. -/
structure FifoInv (cmds : List Command) (s : SysState) : Prop where
  noStopQueue : Command.stop ∉ s.queue
  pendingNoStop : ∀ c ∈ s.pending, c ≠ Command.stop
  logDecomp : s.postedLog = s.executed ++ s.queue
  pendingSuffix : ∃ k, s.pending = cmds.drop k ∧ (cmds.take k).Sublist s.postedLog
  noAwait : s.awaitStop = false

theorem fifoInv_producer {cmds : List Command} {s : SysState}
    (h : FifoInv cmds s) : FifoInv cmds (producerStep s) := by
  cases hp : s.pending with
  | nil =>
      have hb : (s.awaitStop && !s.postedStop) = false := by
        rw [h.noAwait]
        simp
      have hstep : producerStep s = s := by
        simp [producerStep, hp, hb]
      rw [hstep]
      exact h
  | cons c rest =>
      have hcstop : c ≠ Command.stop := h.pendingNoStop c (by rw [hp]; simp)
      have hpush : push s.queue c = s.queue ++ [c] :=
        push_of_getLast?_ne (getLast?_ne_stop_of_not_mem h.noStopQueue) c
      obtain ⟨k, hk1, hk2⟩ := h.pendingSuffix
      refine ⟨?_, ?_, ?_, ?_, ?_⟩ <;>
        simp only [producerStep, hp, post, hpush]
      · intro hm
        rcases List.mem_append.mp hm with h1 | h1
        · exact h.noStopQueue h1
        · simp at h1
          exact hcstop h1.symm
      · intro d hd
        exact h.pendingNoStop d (by rw [hp]; exact List.mem_cons_of_mem c hd)
      · rw [h.logDecomp]
        simp
      · refine ⟨k + 1, ?_, ?_⟩
        · rw [← List.tail_drop, ← hk1, hp]
          rfl
        · have htake : cmds.take (k + 1) = cmds.take k ++ (cmds.drop k).take 1 :=
            List.take_add cmds k 1
          rw [htake, ← hk1, hp]
          exact List.Sublist.append hk2 (List.Sublist.refl _)
      · exact h.noAwait

theorem fifoInv_worker {cmds : List Command} {s : SysState}
    (h : FifoInv cmds s) : FifoInv cmds (workerStep s) := by
  cases hi : s.isStopped with
  | true =>
      cases hsig : s.signaled with
      | true =>
          have hstep : workerStep s = s := by simp [workerStep, hi, hsig]
          rw [hstep]
          exact h
      | false =>
          have hstep : workerStep s = { s with signaled := true } := by
            simp [workerStep, hi, hsig]
          rw [hstep]
          exact ⟨h.noStopQueue, h.pendingNoStop, h.logDecomp,
            h.pendingSuffix, h.noAwait⟩
  | false =>
      cases hq : s.queue with
      | nil =>
          have hstep : workerStep s = s := by simp [workerStep, hi, hq]
          rw [hstep]
          exact h
      | cons c rest =>
          have hrestfree : Command.stop ∉ rest := by
            intro hm
            exact h.noStopQueue (by rw [hq]; exact List.mem_cons_of_mem c hm)
          have hcne : c ≠ Command.stop := by
            intro e
            exact h.noStopQueue (by rw [hq, e]; simp)
          have hstep : workerStep s
              = execute c { s with queue := rest, executed := s.executed ++ [c] } := by
            simp [workerStep, hi, hq, pull]
          have hlog : s.postedLog = (s.executed ++ [c]) ++ rest := by
            rw [h.logDecomp, hq]
            simp
          obtain ⟨k, hk1, hk2⟩ := h.pendingSuffix
          rw [hstep]
          cases c with
          | stop => exact absurd rfl hcne
          | print a =>
              exact ⟨hrestfree, h.pendingNoStop, hlog, ⟨k, hk1, hk2⟩, h.noAwait⟩
          | add a b =>
              have hpush : push rest (Command.print (itoa (wadd a b)))
                  = rest ++ [Command.print (itoa (wadd a b))] :=
                push_of_getLast?_ne (getLast?_ne_stop_of_not_mem hrestfree) _
              refine ⟨?_, h.pendingNoStop, ?_, ?_, h.noAwait⟩ <;>
                simp only [execute, post, hpush]
              · intro hm
                rcases List.mem_append.mp hm with h1 | h1
                · exact hrestfree h1
                · simp at h1
              · rw [hlog]
                simp
              · refine ⟨k, hk1, ?_⟩
                exact List.Sublist.trans hk2 (List.sublist_append_left _ _)

theorem fifoInv_step {cmds : List Command} {s : SysState} (b : Bool)
    (h : FifoInv cmds s) : FifoInv cmds (sysStep b s) := by
  cases b
  · simpa [sysStep] using fifoInv_producer h
  · simpa [sysStep] using fifoInv_worker h

theorem fifoInv_run {cmds : List Command} {s : SysState} (sched : List Bool)
    (h : FifoInv cmds s) : FifoInv cmds (runSys s sched) := by
  induction sched generalizing s with
  | nil => exact h
  | cons b t ih => exact ih (fifoInv_step b h)

theorem fifoInv_init (cmds : List Command)
    (hcmds : ∀ c ∈ cmds, c ≠ Command.stop) :
    FifoInv cmds (initSys cmds false) := by
  refine ⟨?_, ?_, ?_, ⟨0, ?_, ?_⟩, ?_⟩
  · simp [initSys]
  · exact hcmds
  · rfl
  · rfl
  · simp [initSys]
  · rfl

theorem fifoInv_result {cmds : List Command} {s : SysState}
    (h : FifoInv cmds s) (hpend : s.pending = []) (hq : s.queue = []) :
    cmds.Sublist s.executed ∧ s.postedLog = s.executed := by
  obtain ⟨k, hk1, hk2⟩ := h.pendingSuffix
  have hlen : cmds.length ≤ k := by
    by_contra hlt
    push_neg at hlt
    have hdrop : cmds.drop k ≠ [] := by
      intro e
      have := List.drop_eq_nil_iff.mp e
      omega
    exact hdrop (hk1 ▸ hpend)
  have htake : cmds.take k = cmds := List.take_of_length_le hlen
  have hlog : s.postedLog = s.executed := by
    rw [h.logDecomp, hq]
    simp
  rw [htake] at hk2
  rw [hlog] at hk2
  exact ⟨hk2, hlog⟩

theorem two_pow_64_eq : (2 : Int) ^ 64 = 18446744073709551616 := by norm_num

theorem two_pow_63_eq : (2 : Int) ^ 63 = 9223372036854775808 := by norm_num

theorem wrapInt_emod (x : Int) : wrapInt x % 2 ^ 64 = x % 2 ^ 64 := by
  have h : wrapInt x = x + 2 ^ 64 * (-((x + 2 ^ 63) / 2 ^ 64)) := by
    unfold wrapInt
    rw [Int.emod_def]
    ring
  rw [h, Int.add_mul_emod_self_left]

theorem wrapInt_lb (x : Int) : -(2 ^ 63) ≤ wrapInt x := by
  have h := Int.emod_nonneg (x + 2 ^ 63) (by norm_num : (2 : Int) ^ 64 ≠ 0)
  unfold wrapInt
  omega

theorem wrapInt_ub (x : Int) : wrapInt x < 2 ^ 63 := by
  have h := Int.emod_lt_of_pos (x + 2 ^ 63) (by norm_num : (0 : Int) < 2 ^ 64)
  unfold wrapInt
  rw [two_pow_63_eq] at h ⊢
  rw [two_pow_64_eq] at h
  omega

theorem wrapInt_eq_self {x : Int} (h1 : -(2 ^ 63) ≤ x) (h2 : x < 2 ^ 63) :
    wrapInt x = x := by
  unfold wrapInt
  rw [two_pow_63_eq] at h1 h2 ⊢
  rw [Int.emod_eq_of_lt (by omega) (by rw [two_pow_64_eq]; omega)]
  omega

/-! ## Claim theorems -/

/-- Claim C1, counterexample: starting from the empty queue, pushing a
Stop command and then pushing a second Stop command yields a queue
containing two Stop commands, so the Stop-last invariant is NOT
preserved by a push whose command is Stop while the last element is
already Stop.  The intermediate queue `[stop]` is reachable and
satisfies the invariant. -/
theorem c1_counterexample :
    stopLastInv (push [] Command.stop) ∧
    countStop (push (push [] Command.stop) Command.stop) = 2 ∧
    ¬ stopLastInv (push (push [] Command.stop) Command.stop) := by
  decide

/-- Claim C1 (amended): for every queue state satisfying the Stop-last
invariant (at most one pending Stop, last when present), any push whose
command and current last element are not both Stop preserves the
invariant.  The exception is forced by `c1_counterexample`: pushing Stop
onto a Stop-terminated queue produces two queued Stop commands. -/
theorem c1_stop_last_inv_push {q : List Command} {cmd : Command}
    (hinv : stopLastInv q)
    (hnot : ¬(cmd = Command.stop ∧ q.getLast? = Option.some Command.stop)) :
    stopLastInv (push q cmd) :=
  stopLastInv_push hinv (fun e h => hnot ⟨e, h⟩)

/-- Witness for `c1_stop_last_inv_push` at a concrete queue. -/
theorem c1_witness :
    stopLastInv [Command.print "a"] ∧
    ¬(Command.stop = Command.stop ∧
        ([Command.print "a"] : List Command).getLast?
          = Option.some Command.stop) ∧
    stopLastInv (push [Command.print "a"] Command.stop) :=
  ⟨by decide, by decide, c1_stop_last_inv_push (by decide) (by decide)⟩

/-- Claim C2, counterexample: `push Stop; push Stop` from the empty
queue gives length 2, while a single `push Stop` gives length 1, and the
double push leaves two queued Stop commands. -/
theorem c2_counterexample :
    (push (push [] Command.stop) Command.stop).length = 2 ∧
    (push ([] : List Command) Command.stop).length = 1 ∧
    countStop (push (push [] Command.stop) Command.stop) = 2 := by
  decide

/-- Claim C2 (amended): pushing Stop twice in succession yields a queue
ONE LONGER than pushing Stop once — every push (the second Stop push
included) increases the length by exactly one, and the second Stop push
does add a second queued Stop command. -/
theorem c2_push_stop_twice (q : List Command) :
    (push (push q Command.stop) Command.stop).length
        = (push q Command.stop).length + 1 ∧
    countStop (push (push q Command.stop) Command.stop)
        = countStop (push q Command.stop) + 1 :=
  ⟨length_push (push q Command.stop) Command.stop,
    countStop_push_stop (push q Command.stop)⟩

/-- The input lines of the spec's scenario for claim C3. -/
def helloLines : List String := ["print hello", "add 2 3", "print done"]

/-- Claim C3, counterexample: under the interleaving in which the main
goroutine posts all three parsed commands and the Stop of `AwaitFinish`
before the worker runs, the run completes (`signaled`) with output
`hello`, `done`, `5` — not the claimed `hello`, `5`, `done` (the Print
posted by the Add command is spliced in before the queued Stop, after
`print done`). -/
theorem c3_counterexample :
    (runSys (initSys (driverCommands helloLines) true)
        [false, false, false, false, true, true, true, true, true, true]).signaled
      = true ∧
    (runSys (initSys (driverCommands helloLines) true)
        [false, false, false, false, true, true, true, true, true, true]).output
      = ["hello", "done", "5"] ∧
    (runSys (initSys (driverCommands helloLines) true)
        [false, false, false, false, true, true, true, true, true, true]).output
      ≠ ["hello", "5", "done"] := by
  decide

/-- Claim C3 (amended): the observed output for the scenario depends on
the interleaving; under the schedule in which the worker executes each
command (and the Print it spawns) before the next line is posted, the
completed run outputs exactly `hello`, `5`, `done` as the spec's
scenario states. -/
theorem c3_scenario_output :
    (runSys (initSys (driverCommands helloLines) true)
        [false, true, false, true, true, false, true, false, true, true]).signaled
      = true ∧
    (runSys (initSys (driverCommands helloLines) true)
        [false, true, false, true, true, false, true, false, true, true]).output
      = ["hello", "5", "done"] := by
  decide

/-- Claim C4, counterexample: if one of the commands posted before
`AwaitFinish` is itself a Stop command, a later command can be abandoned
even though `AwaitFinish` returns: posting `stop` then `print "x"` and
calling `AwaitFinish`, under the schedule where the worker pulls the
user's Stop first, completes with `print "x"` never executed. -/
theorem c4_counterexample :
    (runSys (initSys [Command.stop, Command.print "x"] true)
        [false, true, false, false, true]).signaled = true ∧
    Command.print "x" ∉ (runSys (initSys [Command.stop, Command.print "x"] true)
        [false, true, false, false, true]).executed := by
  decide

/-- Claim C4 (amended): for every sequence of NON-Stop commands
c1…cn posted before `AwaitFinish`, under every interleaving in which
`AwaitFinish` returns (the worker has signaled), all of c1…cn have been
executed, and every command ever posted — including those transitively
posted by executions — has been executed: the Stop pushed by
`AwaitFinish` stays behind them thanks to the queue's Stop-last
splicing. -/
theorem c4_drain_before_stop (cmds : List Command) (sched : List Bool)
    (hcmds : ∀ c ∈ cmds, c ≠ Command.stop)
    (hsig : (runSys (initSys cmds true) sched).signaled = true) :
    (∀ c ∈ cmds, c ∈ (runSys (initSys cmds true) sched).executed) ∧
    ∀ c ∈ (runSys (initSys cmds true) sched).postedLog,
      c ∈ (runSys (initSys cmds true) sched).executed :=
  sysInv_drained (sysInv_run sched (sysInv_init cmds true hcmds)) hsig

/-- Witness for `c4_drain_before_stop`: one posted print command, a
completing schedule, and the command is indeed executed. -/
theorem c4_witness :
    Command.print "a" ∈ (runSys (initSys [Command.print "a"] true)
      [false, true, false, true, true]).executed :=
  (c4_drain_before_stop [Command.print "a"] [false, true, false, true, true]
    (by decide) (by decide)).1 (Command.print "a") (by decide)

/-- Claim C5: with no Stop command involved (`awaitStop = false`, all
posted commands non-Stop), the executed list is at all times exactly the
prefix of the posted log in push order (FIFO through push, pull and the
worker loop), and once every command has been posted and the queue has
drained, the posted commands c1…cn appear in the executed sequence in
exactly their posting order. -/
theorem c5_fifo_order (cmds : List Command) (sched : List Bool)
    (hcmds : ∀ c ∈ cmds, c ≠ Command.stop) :
    (runSys (initSys cmds false) sched).postedLog
        = (runSys (initSys cmds false) sched).executed
          ++ (runSys (initSys cmds false) sched).queue ∧
    ((runSys (initSys cmds false) sched).pending = [] →
      (runSys (initSys cmds false) sched).queue = [] →
      cmds.Sublist (runSys (initSys cmds false) sched).executed) := by
  have h := fifoInv_run sched (fifoInv_init cmds hcmds)
  exact ⟨h.logDecomp, fun hp hq => (fifoInv_result h hp hq).1⟩

/-- Witness for `c5_fifo_order`: two print commands posted then
executed, in order. -/
theorem c5_witness :
    ([Command.print "a", Command.print "b"]).Sublist
      (runSys (initSys [Command.print "a", Command.print "b"] false)
        [false, false, true, true]).executed :=
  (c5_fifo_order [Command.print "a", Command.print "b"]
      [false, false, true, true] (by decide)).2 (by decide) (by decide)

/-- Claim C6: `push` behaves exactly as the spec words it — append at
the end, unless the current last element is a Stop command, in which
case the new command is inserted in the Stop's place and the Stop is
re-appended after it, leaving the new command immediately before the
Stop. -/
theorem c6_push_matches_spec (q : List Command) (cmd : Command) :
    push q cmd = pushSpec q cmd :=
  push_eq_spec q cmd

/-- Claim C7: `pull` on a non-empty queue removes and returns the first
(oldest) element leaving the rest in order; on an empty queue it hits
the fatal branch (`none`, the Go index-out-of-range panic); and the
worker loop never reaches `pull` with an empty queue — its empty-check
makes that iteration a no-op. -/
theorem c7_pull_fifo (c : Command) (rest : List Command) (s : SysState) :
    pull (c :: rest) = Option.some (c, rest) ∧
    pull [] = (Option.none : Option (Command × List Command)) ∧
    (s.isStopped = false → s.queue = [] → workerStep s = s) := by
  refine ⟨rfl, rfl, fun hi hq => ?_⟩
  simp [workerStep, hi, hq]

/-- Witness for `c7_pull_fifo` at a concrete queue and state. -/
theorem c7_witness :
    pull [Command.stop] = Option.some (Command.stop, ([] : List Command)) ∧
    pull [] = (Option.none : Option (Command × List Command)) ∧
    workerStep (initSys [] false) = initSys [] false := by
  obtain ⟨h1, h2, h3⟩ := c7_pull_fifo Command.stop [] (initSys [] false)
  exact ⟨h1, h2, h3 (by decide) (by decide)⟩

/-- Claim C8: `EventLoop.Stop` sets the stopped flag to true and changes
nothing else — in particular the queue contents are left entirely
unchanged, as are all other components of the system state. -/
theorem c8_stop_frame (s : SysState) :
    (elStop s).isStopped = true ∧
    (elStop s).queue = s.queue ∧
    (elStop s).pending = s.pending ∧
    (elStop s).awaitStop = s.awaitStop ∧
    (elStop s).postedStop = s.postedStop ∧
    (elStop s).signaled = s.signaled ∧
    (elStop s).executed = s.executed ∧
    (elStop s).postedLog = s.postedLog ∧
    (elStop s).output = s.output :=
  ⟨rfl, rfl, rfl, rfl, rfl, rfl, rfl, rfl, rfl⟩

/-- Claim C9, counterexample: `parse` does NOT return "no command" on
every malformed line — on the empty line (no fields) it indexes
`parts[0]` out of range and panics, and likewise on `"print"` with no
argument. -/
theorem c9_counterexample :
    parse "" = ParseResult.panic ∧
    parse "print" = ParseResult.panic ∧
    ParseResult.panic ≠ ParseResult.res Option.none := by
  decide

/-- Claim C9 (amended): every input line that has at least one
whitespace-separated token and whose first token is neither `print` nor
`add` yields "no command" (`nil`) without raising an error; lines with
no tokens at all, or with a recognised command but too few argument
tokens, instead cause an index-out-of-range panic. -/
theorem c9_unknown_command_returns_nil (line : String) (cmd : String)
    (args : List String) (hf : fields line = cmd :: args)
    (hp : cmd ≠ "print") (ha : cmd ≠ "add") :
    parse line = ParseResult.res Option.none := by
  unfold parse
  rw [hf]
  simp [hp, ha]

/-- Witness for `c9_unknown_command_returns_nil` on the line
`"foo bar"`. -/
theorem c9_witness : parse "foo bar" = ParseResult.res Option.none :=
  c9_unknown_command_returns_nil "foo bar" "foo" ["bar"]
    (by decide) (by decide) (by decide)

/-- Claim C10: `addCommand.Execute` posts a Print command carrying the
64-bit two's-complement wrapped sum: the posted value is congruent to
`a + b` modulo `2^64` and lies in `[-2^63, 2^63)` — on overflow it
wraps (e.g. `MaxInt64 + 1` gives `MinInt64`), never erroring or
saturating — and nothing is printed directly by the Add itself. -/
theorem c10_add_wraps (a b : Int) (s : SysState) :
    (execute (Command.add a b) s).postedLog
        = s.postedLog ++ [Command.print (itoa (wadd a b))] ∧
    (execute (Command.add a b) s).queue
        = push s.queue (Command.print (itoa (wadd a b))) ∧
    (execute (Command.add a b) s).output = s.output ∧
    wadd a b % 2 ^ 64 = (a + b) % 2 ^ 64 ∧
    -(2 ^ 63) ≤ wadd a b ∧ wadd a b < 2 ^ 63 ∧
    wadd (2 ^ 63 - 1) 1 = -(2 ^ 63) :=
  ⟨rfl, rfl, rfl, wrapInt_emod (a + b), wrapInt_lb (a + b),
    wrapInt_ub (a + b), by decide⟩
